import Mathlib

/-!
Verification development for the validator-offload websocket gateway.

The definitions below are a shallow embedding of the Rust sources:
`ws-server/src/slotree.rs` (the slot-commitment tree), `ws-server/src/buffer.rs`
(the account buffer), `ws-server/src/types.rs` (the bidirectional subscription
map), `src/ws.rs` (the websocket session), `src/message.rs` and
`ws-server/src/notification.rs` (the notification pipeline) and `src/lib.rs`
(commitment levels and subscription keys).

Rust `HashMap`/`BTreeMap` fields are embedded as association lists
(`List (κ × α)`) with first-match lookup, insert-replace and remove-first
operations, which matches the single-entry-per-key behaviour of the hash maps.
Reference-counted tree nodes (`Rc`/`Weak` in `slotree.rs`) are embedded as an
arena: a list of `(NodeId × SlotNode)` pairs plus a distinguished root id.
A `Weak` reference is a `NodeId` whose upgrade succeeds exactly when the id is
still present in the arena; dropping the last strong reference to a subtree is
embedded by removing its ids from the arena.
-/

/-- First-match lookup in an association list (embeds `HashMap::get`). -/
def lookupA {κ α : Type} [DecidableEq κ] : List (κ × α) → κ → Option α
  | [], _ => none
  | (k, v) :: rest, key => if k = key then some v else lookupA rest key

/-- Insert-or-replace in an association list (embeds `HashMap::insert`). -/
def insertA {κ α : Type} [DecidableEq κ] : List (κ × α) → κ → α → List (κ × α)
  | [], key, val => [(key, val)]
  | (k, v) :: rest, key, val =>
      if k = key then (key, val) :: rest else (k, v) :: insertA rest key val

/-- Remove the first entry with the given key (embeds `HashMap::remove`). -/
def removeA {κ α : Type} [DecidableEq κ] : List (κ × α) → κ → List (κ × α)
  | [], _ => []
  | (k, v) :: rest, key => if k = key then rest else (k, v) :: removeA rest key

/-- Update the first entry with the given key in place, if present. -/
def updA {κ α : Type} [DecidableEq κ] : List (κ × α) → κ → (α → α) → List (κ × α)
  | [], _, _ => []
  | (k, v) :: rest, key, f =>
      if k = key then (k, f v) :: rest else (k, v) :: updA rest key f

/-! ## The slot-commitment tree (`ws-server/src/slotree.rs`) -/

abbrev Slot := Nat

abbrev NodeId := Nat

/-- `Commitment` (src/lib.rs): Processed = 1, Confirmed = 2, Finalized = 3. -/
inductive Commitment
  | processed
  | confirmed
  | finalized
deriving DecidableEq, Repr

/-- `impl From<u8> for Commitment` (src/lib.rs lines 91-99): 2 maps to
Confirmed, 3 maps to Finalized and every other byte maps to Processed. -/
def commitmentFromU8 (status : Nat) : Commitment :=
  if status = 2 then .confirmed else if status = 3 then .finalized else .processed

/-- `Commitment::confirmed` (src/lib.rs lines 101-106). -/
def Commitment.isConfirmed : Commitment → Bool
  | .confirmed => true
  | _ => false

/-- `SlotStatus` (slotree.rs lines 20-25). -/
inductive SlotStatus
  | processed
  | confirmed
  | rooted
deriving DecidableEq, Repr

/-- `impl From<Commitment> for SlotStatus` (slotree.rs lines 345-353). -/
def SlotStatus.ofCommitment : Commitment → SlotStatus
  | .processed => .processed
  | .confirmed => .confirmed
  | .finalized => .rooted

/-- A node of the slot tree (`SlotNode`, slotree.rs lines 27-33). `parent` is
the weak back-reference: a `NodeId` whose upgrade succeeds iff the id is still
in the arena; `none` is the default empty weak. `children` is the owning map
keyed by child slot. -/
structure SlotNode where
  parent : Option NodeId
  children : List (Slot × NodeId)
  slot : Slot
  status : SlotStatus
deriving DecidableEq, Repr

/-- `SlotNode::default()`: empty links, slot 0 and the default status Rooted
(`impl Default for SlotStatus`, slotree.rs lines 325-329). -/
def SlotNode.defaultNode : SlotNode :=
  { parent := none, children := [], slot := 0, status := .rooted }

/-- `RootedOrPrunedSlot` (slotree.rs lines 134-137). -/
structure RootedOrPrunedSlot where
  slot : Slot
  rooted : Bool
deriving DecidableEq, Repr

/-- The data read through the `RawSlot` trait (slotree.rs lines 83-87). -/
structure RawSlotData where
  slot : Slot
  parent : Slot
  status : SlotStatus
deriving DecidableEq, Repr

/-- `SlotTree` (slotree.rs lines 13-18): arena of reference-counted nodes,
the strong root reference, the weak lookup index and the bootstrapping flag.
`nextId` supplies fresh arena ids for newly allocated nodes. -/
structure SlotTree where
  nodes : List (NodeId × SlotNode)
  root : NodeId
  lookup : List (Slot × NodeId)
  bootstrapping : Bool
  nextId : NodeId
deriving DecidableEq, Repr

/-- `SlotTree::new` (slotree.rs lines 174-185). -/
def SlotTree.new : SlotTree :=
  { nodes := [(0, SlotNode.defaultNode)], root := 0,
    lookup := [(0, 0)], bootstrapping := true, nextId := 1 }

/-- `self.root.slot` / `SlotTree::current_root` (slotree.rs lines 320-322).
The strong root reference is always live, so the default is never reached on
states built by the tree operations. -/
def rootSlot (t : SlotTree) : Slot :=
  ((lookupA t.nodes t.root).map SlotNode.slot).getD 0

/-- Fuel bound for arena traversals: strictly more than the number of
ownership edges plus nodes, enough for any take-style traversal. -/
def fuelOf (nodes : List (NodeId × SlotNode)) : Nat :=
  nodes.length + (nodes.map (fun kv => kv.2.children.length)).sum + 1

/-- `StrongNode::prune` (slotree.rs lines 57-68): sever and collect an entire
subtree, take-style (each visited node's children map is emptied, so the
traversal terminates even on corrupted shapes). Visited nodes are removed
from the arena — their last strong reference is dropped — except the ids in
`prot`, which an outside strong reference keeps alive. -/
def pruneGo : Nat → List (NodeId × SlotNode) → List NodeId → List NodeId →
    (List Slot × List (NodeId × SlotNode))
  | 0, nodes, _, _ => ([], nodes)
  | _ + 1, nodes, [], _ => ([], nodes)
  | fuel + 1, nodes, id :: stack, prot =>
      match lookupA nodes id with
      | none => pruneGo fuel nodes stack prot
      | some n =>
          let nodes1 := if id ∈ prot
            then updA nodes id (fun m => { m with children := [] })
            else removeA nodes id
          let res := pruneGo fuel nodes1 (n.children.map Prod.snd ++ stack) prot
          (n.slot :: res.1, res.2)

/-- Dropping the last strong reference to a node frees it and, transitively,
its exclusively-owned descendants. Ids in `prot` are still owned elsewhere
(the root field, or a live local binding) and are left untouched.
Reference-count leaks through ownership cycles are not modelled; the
operations below never construct cyclic ownership. -/
def dropGo : Nat → List (NodeId × SlotNode) → List NodeId → List NodeId →
    List (NodeId × SlotNode)
  | 0, nodes, _, _ => nodes
  | _ + 1, nodes, [], _ => nodes
  | fuel + 1, nodes, id :: stack, prot =>
      if id ∈ prot then dropGo fuel nodes stack prot
      else match lookupA nodes id with
        | none => dropGo fuel nodes stack prot
        | some n => dropGo fuel (removeA nodes id) (n.children.map Prod.snd ++ stack) prot

/-- The promotion loop of `SlotTree::root` (slotree.rs lines 290-311): walk
up from the freshly rooted node `nid`, at each parent detach the rooted-branch
child, prune every rival child subtree, and stop at the first already-rooted
ancestor. Returns the rooted/pruned entries accumulated after the head entry
together with the arena after all drops. `none` embeds a panic of one of the
`expect`s, or a walk that never reaches a rooted ancestor. -/
def rootGoFn : Nat → List (NodeId × SlotNode) → NodeId → NodeId → Slot → NodeId →
    Option (List RootedOrPrunedSlot × List (NodeId × SlotNode))
  | 0, _, _, _, _, _ => none
  | fuel + 1, nodes, nid, oldRoot, childSlot, pid =>
      match lookupA nodes pid with
      | none => none
      | some p =>
          let nodes1 := updA nodes pid (fun m => { m with children := [] })
          match lookupA p.children childSlot with
          | none => none
          | some cid =>
              let nodes2 := dropGo (fuelOf nodes1) nodes1 [cid] [nid, oldRoot]
              let rivals := (removeA p.children childSlot).map Prod.snd
              let pr := rivals.foldl
                (fun acc r =>
                  let res := pruneGo (fuelOf acc.2) acc.2 [r] [nid, oldRoot]
                  (acc.1 ++ res.1, res.2))
                (([] : List Slot), nodes2)
              let pruned := pr.1.map (fun s => RootedOrPrunedSlot.mk s false)
              if p.status = .rooted then
                some (pruned, pr.2)
              else
                match p.parent with
                | none => none
                | some gid =>
                    (rootGoFn fuel pr.2 nid oldRoot p.slot gid).map
                      (fun res => (pruned ++ RootedOrPrunedSlot.mk p.slot true :: res.1, res.2))

/-- `SlotTree::root` (slotree.rs lines 282-318). -/
def rootFn (t : SlotTree) (nid : NodeId) : Option (List RootedOrPrunedSlot × SlotTree) :=
  match lookupA t.nodes nid with
  | none => none
  | some n =>
      match n.parent with
      | none => none
      | some pid =>
          match rootGoFn (fuelOf t.nodes) t.nodes nid t.root n.slot pid with
          | none => none
          | some res =>
              let l := RootedOrPrunedSlot.mk n.slot true :: res.1
              let nodes2 := if t.root = nid then res.2
                else dropGo (fuelOf res.2) res.2 [t.root] [nid]
              let lk := insertA (l.foldl (fun lk s => removeA lk s.slot) t.lookup) n.slot nid
              some (l, { nodes := nodes2, root := nid, lookup := lk,
                         bootstrapping := t.bootstrapping, nextId := t.nextId })

/-- The attach-and-maybe-root tail of `SlotTree::bootstrap` (slotree.rs lines
197-215), once the parent id `pid` has been resolved (`nodesA` is the arena
after the initial `parent.detach(raw.slot())`): resolve or allocate the slot
node, re-parent it, attach it to the parent (a replacement drops the old
child), and promote it to root when its status roots — in which case
`bootstrapping` clears. -/
def bootstrapAttach (t : SlotTree) (raw : RawSlotData) (pid : NodeId)
    (nodesA : List (NodeId × SlotNode)) :
    Option (Option (List RootedOrPrunedSlot) × SlotTree) :=
  match (match lookupA t.lookup raw.slot with
         | some wsid =>
             match lookupA nodesA wsid with
             | none => none
             | some _ =>
                 some (wsid,
                       updA nodesA wsid (fun m => { m with status := raw.status }),
                       t.nextId)
         | none =>
             some (t.nextId,
                   insertA nodesA t.nextId
                     { parent := none, children := [], slot := raw.slot,
                       status := raw.status },
                   t.nextId + 1)) with
  | none => none
  | some sres =>
      let sid := sres.1
      let nodes3 := updA sres.2.1 sid (fun m => { m with parent := some pid })
      match lookupA nodes3 sid, lookupA nodes3 pid with
      | some sn, some pc =>
          let nodes4 := updA nodes3 pid
            (fun m => { m with children := insertA m.children sn.slot sid })
          let nodes5 := match lookupA pc.children sn.slot with
            | some oc => if oc = sid then nodes4
                else dropGo (fuelOf nodes4) nodes4 [oc] [t.root, sid]
            | none => nodes4
          let t1 : SlotTree := { nodes := nodes5, root := t.root, lookup := t.lookup,
                                 bootstrapping := t.bootstrapping, nextId := sres.2.2 }
          match lookupA nodes5 sid with
          | none => none
          | some nn =>
              if nn.status = .rooted then
                match rootFn t1 sid with
                | none => none
                | some rt => some (some rt.1, { rt.2 with bootstrapping := false })
              else some (none, t1)
      | _, _ => none

/-- `SlotTree::bootstrap` (slotree.rs lines 187-216). The parent is resolved
through `lookup` with the current root as fallback (detaching the slot from
it first, which drops any such child); the rest is `bootstrapAttach`. Note
that the bootstrap path never inserts the new node into `lookup`. -/
def bootstrapT (t : SlotTree) (raw : RawSlotData) :
    Option (Option (List RootedOrPrunedSlot) × SlotTree) :=
  match (match lookupA t.lookup raw.parent with
         | some wpid =>
             match lookupA t.nodes wpid with
             | none => none
             | some wp =>
                 let nodes1 := updA t.nodes wpid
                   (fun m => { m with children := removeA m.children raw.slot })
                 let nodes2 := match lookupA wp.children raw.slot with
                   | some d => dropGo (fuelOf nodes1) nodes1 [d] [t.root]
                   | none => nodes1
                 some (wpid, nodes2)
         | none => some (t.root, t.nodes)) with
  | none => none
  | some pres => bootstrapAttach t raw pres.1 pres.2

/-- The already-tracked branch of `SlotTree::push` (slotree.rs lines 228-254),
after the slot node `(wid, n)`, its old parent `(opid, op)` and the new parent
`(npid, np)` have been resolved. `old_parent != new_parent` compares the two
nodes by slot, since `PartialEq for SlotNode` compares slots (slotree.rs lines
77-81); on a move the node is detached from the old parent and attached to the
new one (a replacement there drops the old child). Then the node is
re-parented, its status overwritten with the raw status, and it is promoted to
root when the written status roots. -/
def pushTracked (t : SlotTree) (raw : RawSlotData) (wid : NodeId) (n : SlotNode)
    (opid : NodeId) (op : SlotNode) (npid : NodeId) (np : SlotNode) :
    Option (Option (List RootedOrPrunedSlot) × SlotTree) :=
  match (if op.slot ≠ np.slot then
           match lookupA op.children n.slot with
           | none => none
           | some cid =>
               let nodes1 := updA t.nodes opid
                 (fun m => { m with children := removeA m.children n.slot })
               match lookupA nodes1 cid, lookupA nodes1 npid with
               | some cn, some np1 =>
                   let nodes2 := updA nodes1 npid
                     (fun m => { m with children := insertA m.children cn.slot cid })
                   some (match lookupA np1.children cn.slot with
                         | some oc => if oc = cid then nodes2
                             else dropGo (fuelOf nodes2) nodes2 [oc] [t.root, wid]
                         | none => nodes2)
               | _, _ => none
         else some t.nodes) with
  | none => none
  | some nodesM =>
      let nodes5 := updA (updA nodesM wid (fun m => { m with parent := some npid }))
        wid (fun m => { m with status := raw.status })
      let t1 : SlotTree := { t with nodes := nodes5 }
      match lookupA nodes5 wid with
      | none => none
      | some nn =>
          if nn.status = .rooted then (rootFn t1 wid).map (fun rt => (some rt.1, rt.2))
          else some (none, t1)

/-- The never-seen branch of `SlotTree::push` (slotree.rs lines 255-273),
after the parent `(pid, p)` has been resolved: allocate the node with the raw
status, insert it into `lookup`, attach it to the parent (a replacement drops
the old child), and promote it to root when the status roots. -/
def pushNew (t : SlotTree) (raw : RawSlotData) (pid : NodeId) (p : SlotNode) :
    Option (Option (List RootedOrPrunedSlot) × SlotTree) :=
  let nid := t.nextId
  let node : SlotNode := { parent := some pid, children := [],
                           slot := raw.slot, status := raw.status }
  let nodes1 := insertA t.nodes nid node
  let lk1 := insertA t.lookup raw.slot nid
  let nodes2 := updA nodes1 pid
    (fun m => { m with children := insertA m.children raw.slot nid })
  let nodes3 := match lookupA p.children raw.slot with
    | some oc => if oc = nid then nodes2
        else dropGo (fuelOf nodes2) nodes2 [oc] [t.root, nid]
    | none => nodes2
  let t1 : SlotTree := { nodes := nodes3, root := t.root, lookup := lk1,
                         bootstrapping := t.bootstrapping, nextId := t.nextId + 1 }
  match lookupA nodes3 nid with
  | none => none
  | some nn =>
      if nn.status = .rooted then (rootFn t1 nid).map (fun rt => (some rt.1, rt.2))
      else some (none, t1)

/-- `SlotTree::push` (slotree.rs lines 218-280). The outer `Option` embeds a
panic of one of the `expect`s (and a promotion walk that diverges); the inner
`Option` is the Rust return value. -/
def pushT (t : SlotTree) (raw : RawSlotData) :
    Option (Option (List RootedOrPrunedSlot) × SlotTree) :=
  if t.bootstrapping then bootstrapT t raw
  else if raw.slot ≤ rootSlot t then some (none, t)
  else
    match lookupA t.lookup raw.slot with
    | some wid =>
        match lookupA t.nodes wid with
        | none => none
        | some n =>
            match n.parent with
            | none => none
            | some opid =>
                match lookupA t.nodes opid with
                | none => none
                | some op =>
                    match lookupA t.lookup raw.parent with
                    | none => some (none, t)
                    | some npid =>
                        match lookupA t.nodes npid with
                        | none => none
                        | some np => pushTracked t raw wid n opid op npid np
    | none =>
        match lookupA t.lookup raw.parent with
        | none => some (none, t)
        | some pid =>
            match lookupA t.nodes pid with
            | none => none
            | some p => pushNew t raw pid p

/-- The status of the node currently tracked for a slot, read through the
lookup index (a weak reference that must upgrade). -/
def statusOfSlot (t : SlotTree) (s : Slot) : Option SlotStatus :=
  (lookupA t.lookup s).bind (fun id => (lookupA t.nodes id).map SlotNode.status)

/-- Slots of all nodes reachable from the current root along ownership
(children) edges. -/
def reachableSlots (t : SlotTree) : List Slot :=
  (pruneGo (fuelOf t.nodes) t.nodes [t.root] []).1

/-! ## The account buffer (`ws-server/src/buffer.rs`) -/

/-- `PubSubAccount` (src/message.rs lines 76-91). Pubkeys and payload bytes
are opaque here and embedded as naturals / lists of naturals. `slot_status`
is the wire byte (1 = processed, 2 = confirmed, 3 = finalized). -/
structure PubSubAccount where
  pubkey : Nat
  owner : Nat
  lamports : Nat
  data : List Nat
  rent_epoch : Nat
  executable : Bool
  slot : Slot
  slot_status : Nat
deriving DecidableEq, Repr

/-- `SlotUpdatedMessage` (src/message.rs lines 22-31). -/
structure SlotUpdatedMessage where
  slot : Slot
  parent : Slot
  commitment : Commitment
deriving DecidableEq, Repr

/-- Modelled from the spec: the `RawSlot` implementation for
`SlotUpdatedMessage` lives in the ws-server crate file `message.rs`, which is
missing from the source snapshot (only its users are present). Per the spec,
a SlotUpdate is `{slot:Slot, parent:Slot, status:Commitment}` and drives the
SlotTree, whose statuses are obtained from commitments via
`From<Commitment> for SlotStatus` (slotree.rs lines 345-353). -/
def rawOf (u : SlotUpdatedMessage) : RawSlotData :=
  { slot := u.slot, parent := u.parent, status := SlotStatus.ofCommitment u.commitment }

/-- Overwrite the wire status byte of an account (`acc.slot_status = b`). -/
def setStatusB (b : Nat) (a : PubSubAccount) : PubSubAccount := { a with slot_status := b }

/-- The state of the `Buffer` actor (buffer.rs lines 16-26): buffered accounts
keyed by slot, plus the owned `SlotTree`. The router address is not part of
the state; the messages sent to it are returned by the handler below. -/
structure BufferState where
  accounts : List (Slot × List PubSubAccount)
  slots : SlotTree
deriving DecidableEq, Repr

/-- `Handler<PubSubAccount> for Buffer` (buffer.rs lines 52-58):
`accounts.entry(acc.slot).or_default().push(acc)`. -/
def bufferTrack (b : BufferState) (acc : PubSubAccount) : BufferState :=
  { b with accounts :=
      match lookupA b.accounts acc.slot with
      | some bucket => insertA b.accounts acc.slot (bucket ++ [acc])
      | none => insertA b.accounts acc.slot [acc] }

/-- The rooted-or-pruned replay loop of `Handler<SlotUpdatedMessage>`
(buffer.rs lines 74-82): for every returned slot, pop its bucket; if the slot
was rooted, send every account of the bucket onward with wire status 3
(finalized); otherwise drop the bucket. Returns the accounts map after all
removals and the messages sent to the router, in order. -/
def replayLoop : List RootedOrPrunedSlot → List (Slot × List PubSubAccount) →
    (List (Slot × List PubSubAccount) × List PubSubAccount)
  | [], m => (m, [])
  | s :: rest, m =>
      let bucket := (lookupA m s.slot).getD []
      let res := replayLoop rest (removeA m s.slot)
      (res.1, (if s.rooted then bucket.map (setStatusB 3) else []) ++ res.2)

/-- `Handler<SlotUpdatedMessage> for Buffer` (buffer.rs lines 60-95). If the
update is Confirmed, the buffered accounts of that slot are mutated in place
(`acc.slot_status = 2` through `get_mut`) and a clone of each mutated account
is sent; then the update is pushed into the tree, the rooted/pruned buckets
are replayed or dropped, and every bucket strictly below the current root is
garbage-collected. Returns the new state and the accounts sent to the router;
`none` embeds a panic inside `SlotTree::push`. -/
def handleSlotUpdated (b : BufferState) (u : SlotUpdatedMessage) :
    Option (BufferState × List PubSubAccount) :=
  let conf := u.commitment.isConfirmed
  let accounts1 := if conf then updA b.accounts u.slot (List.map (setStatusB 2)) else b.accounts
  let out1 := if conf then ((lookupA b.accounts u.slot).getD []).map (setStatusB 2) else []
  match pushT b.slots (rawOf u) with
  | none => none
  | some res =>
      let l := (res.1).getD []
      let rl := replayLoop l accounts1
      let r := rootSlot res.2
      let accounts3 := rl.1.filter (fun kv => decide (¬ kv.1 < r))
      some ({ accounts := accounts3, slots := res.2 }, out1 ++ rl.2)

/-! ## Subscription bookkeeping (`ws-server/src/types.rs`, `src/ws.rs`) -/

/-- `SubscriptionKind` (src/lib.rs lines 45-51). -/
inductive SubscriptionKind
  | account
  | program
deriving DecidableEq, Repr

/-- `SubKey` (src/lib.rs lines 78-83). -/
structure SubKey where
  key : Nat
  commitment : Commitment
  kind : SubscriptionKind
deriving DecidableEq, Repr

/-- `SubKey::new` (src/lib.rs lines 108-117). -/
def SubKey.newK (key : Nat) : SubKey :=
  { key := key, commitment := .processed, kind := .account }

/-- The `SubKey::commitment` builder (src/lib.rs lines 119-123). -/
def SubKey.withStatus (k : SubKey) (slot_status : Nat) : SubKey :=
  { k with commitment := commitmentFromU8 slot_status }

/-- The `SubKey::kind` builder (src/lib.rs lines 125-130). -/
def SubKey.withKind (k : SubKey) (kind : SubscriptionKind) : SubKey :=
  { k with kind := kind }

/-- `SubscriptionsMap` (ws-server/src/types.rs lines 11-15). -/
structure SubscriptionsMap where
  key2id : List (SubKey × Nat)
  id2key : List (Nat × SubKey)
deriving DecidableEq, Repr

def SubscriptionsMap.empty : SubscriptionsMap := { key2id := [], id2key := [] }

/-- `SubscriptionsMap::insert` (types.rs lines 19-22). -/
def smInsert (m : SubscriptionsMap) (key : SubKey) (id : Nat) : SubscriptionsMap :=
  { key2id := insertA m.key2id key id, id2key := insertA m.id2key id key }

/-- `SubscriptionsMap::remove_by_key` (types.rs lines 26-32). -/
def smRemoveByKey (m : SubscriptionsMap) (key : SubKey) : SubscriptionsMap × Option Nat :=
  match lookupA m.key2id key with
  | some id => ({ key2id := removeA m.key2id key, id2key := removeA m.id2key id }, some id)
  | none => ({ m with key2id := removeA m.key2id key }, none)

/-- `SubscriptionsMap::remove_by_id` (types.rs lines 35-41). -/
def smRemoveById (m : SubscriptionsMap) (id : Nat) : SubscriptionsMap × Option SubKey :=
  match lookupA m.id2key id with
  | some key => ({ key2id := removeA m.key2id key, id2key := removeA m.id2key id }, some key)
  | none => ({ m with id2key := removeA m.id2key id }, none)

/-- `SubscriptionsMap::drain` (types.rs lines 44-47): both directions are
empty afterwards; the old key-to-id map is returned for cleanup iteration. -/
def smDrain (m : SubscriptionsMap) : SubscriptionsMap × List (SubKey × Nat) :=
  ({ key2id := [], id2key := [] }, m.key2id)

/-- One `SubscriptionsMap` operation, for stating the bidirectional invariant
over arbitrary operation sequences. -/
inductive MapOp
  | ins (key : SubKey) (id : Nat)
  | rmKey (key : SubKey)
  | rmId (id : Nat)
  | clearAll
deriving DecidableEq, Repr

def applyOp (m : SubscriptionsMap) : MapOp → SubscriptionsMap
  | .ins key id => smInsert m key id
  | .rmKey key => (smRemoveByKey m key).1
  | .rmId id => (smRemoveById m id).1
  | .clearAll => (smDrain m).1

def runOps (ops : List MapOp) : SubscriptionsMap :=
  ops.foldl applyOp SubscriptionsMap.empty

/-- The bidirectional-consistency invariant claimed for `SubscriptionsMap`:
`key2id[k] = i` iff `id2key[i] = k`. -/
def smConsistent (m : SubscriptionsMap) : Prop :=
  ∀ key id, lookupA m.key2id key = some id ↔ lookupA m.id2key id = some key

/-- An insert is fresh when neither its key nor its id is already mapped.
This is how `WsSession` always uses the map: it checks `get_by_key` first and
allocates ids from a strictly increasing counter. -/
def opFresh (m : SubscriptionsMap) : MapOp → Prop
  | .ins key id => lookupA m.key2id key = none ∧ lookupA m.id2key id = none
  | _ => True

def freshRun : SubscriptionsMap → List MapOp → Prop
  | _, [] => True
  | m, op :: rest => opFresh m op ∧ freshRun (applyOp m op) rest

/-- The message the session sends to the router on a fresh subscribe
(`SubscribeMessage::AccountSubscribe`; the recipient, which is the session
itself, is not modelled). -/
inductive RouterMsg
  | accountSubscribe (key : SubKey)
deriving DecidableEq, Repr

/-- The per-session subscription state of `WsSession` (src/ws.rs lines
21-35): the `SubscriptionsMap` and the next-SubID counter. -/
structure SessionState where
  subscriptions : SubscriptionsMap
  next : Nat
deriving DecidableEq, Repr

def SessionState.fresh : SessionState :=
  { subscriptions := SubscriptionsMap.empty, next := 0 }

/-- The account/program-subscribe arm of `WsSession::process` (src/ws.rs
lines 81-118), after parameter parsing: if the map already contains the key,
reply with the existing id; otherwise send `AccountSubscribe` to the router,
allocate `id = self.next()` (src/ws.rs lines 167-171) and insert the pair.
Returns the replied id, the messages sent to the router, and the new state. -/
def processSub (s : SessionState) (key : SubKey) : Nat × List RouterMsg × SessionState :=
  match lookupA s.subscriptions.key2id key with
  | some id => (id, [], s)
  | none =>
      (s.next, [RouterMsg.accountSubscribe key],
       { subscriptions := smInsert s.subscriptions key s.next, next := s.next + 1 })

/-! ## The notification pipeline (`src/message.rs`,
`ws-server/src/notification.rs`, `src/ws.rs`) -/

/-- `AccountInfo` (src/message.rs lines 34-48). -/
structure AccountInfo where
  lamports : Nat
  owner : Nat
  data : List Nat
  executable : Bool
  rent_epoch : Nat
  slot : Slot
deriving DecidableEq, Repr

/-- `From<PubSubAccount> for AccountInfo` (src/message.rs lines 121-132). -/
def accountInfoOf (a : PubSubAccount) : AccountInfo :=
  { lamports := a.lamports, owner := a.owner, data := a.data,
    executable := a.executable, rent_epoch := a.rent_epoch, slot := a.slot }

/-- `PubSubAccountWithSubKind` (src/message.rs lines 95-102). -/
structure PubSubAccountWithSubKind where
  account : PubSubAccount
  kind : SubscriptionKind
deriving DecidableEq, Repr

/-- `From<&PubSubAccountWithSubKind> for SubKey` (src/lib.rs lines 133-143):
the pubkey for Account subscriptions, the owner for Program ones. -/
def subKeyOfAcc (acc : PubSubAccountWithSubKind) : SubKey :=
  let pubkey := match acc.kind with
    | .account => acc.account.pubkey
    | .program => acc.account.owner
  ((SubKey.newK pubkey).withStatus acc.account.slot_status).withKind acc.kind

/-- `AccountUpdatedMessage` (src/message.rs lines 9-19). The field `sub` is
documented there as "Subscription ID issued to client, to differentiate
between different notifications sent via websocket connection". -/
structure AccountUpdatedMessage where
  key : SubKey
  info : AccountInfo
  sub : Nat
deriving DecidableEq, Repr

/-- `From<PubSubAccountWithSubKind> for AccountUpdatedMessage`
(src/message.rs lines 111-119): `sub` is set to `SubID::default()`, i.e. 0,
and no later stage of the dispatch path overwrites it. -/
def accountUpdatedOf (acc : PubSubAccountWithSubKind) : AccountUpdatedMessage :=
  { key := subKeyOfAcc acc, info := accountInfoOf acc.account, sub := 0 }

/-- The JSON-RPC method of an account notification. -/
inductive NotifMethod
  | accountNotification
  | programNotification
deriving DecidableEq, Repr

/-- `AccountNotification` (ws-server/src/notification.rs lines 10-34),
restricted to the fields the claims are about: the method, the context slot
and `params.subscription`. The base64+zstd account-value encoding is an
external library concern and is not modelled. -/
structure AccountNotification where
  method : NotifMethod
  subscription : Nat
  slot : Slot
deriving DecidableEq, Repr

/-- `From<AccountUpdatedMessage> for AccountNotification`
(ws-server/src/notification.rs lines 66-85): the method follows the key kind
and `params.subscription := msg.sub`. -/
def notificationOf (msg : AccountUpdatedMessage) : AccountNotification :=
  { method := match msg.key.kind with
      | .program => .programNotification
      | .account => .accountNotification,
    subscription := msg.sub,
    slot := msg.info.slot }

/-- `Handler<AccountUpdatedMessage> for WsSession` (src/ws.rs lines 198-205):
the received message is converted and written out as a text frame as-is; the
session's subscription map is not consulted. -/
def sessionNotify (_s : SessionState) (msg : AccountUpdatedMessage) : AccountNotification :=
  notificationOf msg

/-- Well-formedness of a `SubscriptionsMap`: unique keys on both sides plus
the bidirectional-consistency invariant. The hash maps of the source have
unique keys by construction. -/
def smWF (m : SubscriptionsMap) : Prop :=
  (m.key2id.map Prod.fst).Nodup ∧ (m.id2key.map Prod.fst).Nodup ∧ smConsistent m

/-- The emissions the spec prescribes for a rooted-or-pruned list: for every
rooted entry, the accounts buffered under its slot at handler entry, each as a
copy with wire status 3 (finalized); nothing for pruned entries. -/
def finalizedOut (m : List (Slot × List PubSubAccount)) :
    List RootedOrPrunedSlot → List PubSubAccount
  | [] => []
  | s :: rest =>
      (if s.rooted then ((lookupA m s.slot).getD []).map (setStatusB 3) else []) ++
        finalizedOut m rest

/-- Helper for building example states: the tree after a push, ignoring the
panic case (which never occurs on these examples). -/
def pushD (t : SlotTree) (r : RawSlotData) : SlotTree :=
  match pushT t r with
  | some p => p.2
  | none => t

/-- Example state: the tree bootstrapped by a finalized update for slot 10
(parent 0); its current root is 10 and bootstrapping is over. -/
def exTree1 : SlotTree := pushD SlotTree.new (rawOf ⟨10, 0, .finalized⟩)

/-- Example state: slot 11 (child of 10), processed. -/
def exTree2 : SlotTree := pushD exTree1 (rawOf ⟨11, 10, .processed⟩)

/-- Example state: slot 12 (child of 11), processed. -/
def exTree3 : SlotTree := pushD exTree2 (rawOf ⟨12, 11, .processed⟩)

/-- Example state: slot 13 (child of 11), processed. -/
def exTree4 : SlotTree := pushD exTree3 (rawOf ⟨13, 11, .processed⟩)

/-- Example state: slot 14 (child of 10, the spec scenario's slot 11b),
processed. -/
def exTree5 : SlotTree := pushD exTree4 (rawOf ⟨14, 10, .processed⟩)

/-- Example state: slot 15 (child of 14, the spec scenario's slot 12b),
processed. The tree now has root 10 with children {11 → {12, 13}, 14 → {15}}. -/
def exTree6 : SlotTree := pushD exTree5 (rawOf ⟨15, 14, .processed⟩)

/-- Example account buffered at slot 100 with wire status Processed. -/
def exAcc : PubSubAccount :=
  { pubkey := 7, owner := 9, lamports := 5, data := [1, 2], rent_epoch := 0,
    executable := false, slot := 100, slot_status := 1 }

/-- Example buffer: `exAcc` buffered under slot 100, tree rooted at 10. -/
def exBuffer : BufferState := { accounts := [(100, [exAcc])], slots := exTree1 }

/-- The tree after the Confirmed update for slot 100 reaches `exTree1`. -/
def c9tree : SlotTree := pushD exTree1 (rawOf ⟨100, 10, .confirmed⟩)

/-- Example account buffered at slot 12. -/
def exAcc12 : PubSubAccount :=
  { pubkey := 3, owner := 4, lamports := 1, data := [5], rent_epoch := 0,
    executable := false, slot := 12, slot_status := 1 }

/-- Example account buffered at slot 13 (a slot about to be pruned). -/
def exAcc13 : PubSubAccount :=
  { pubkey := 6, owner := 4, lamports := 2, data := [7], rent_epoch := 0,
    executable := false, slot := 13, slot_status := 1 }

/-- Example buffer over `exTree6` with accounts buffered at slots 12 and 13. -/
def exBuffer6 : BufferState :=
  { accounts := [(12, [exAcc12]), (13, [exAcc13])], slots := exTree6 }

/-- The tree after finalizing slot 12 over `exTree6` (root promotion). -/
def c2tree : SlotTree := pushD exTree6 (rawOf ⟨12, 11, .finalized⟩)

/-- The rooted-or-pruned list returned by finalizing slot 12 over `exTree6`. -/
def c2list : List RootedOrPrunedSlot :=
  [⟨12, true⟩, ⟨13, false⟩, ⟨11, true⟩, ⟨14, false⟩, ⟨15, false⟩]

/-- The tree reached from `exTree1` by a Confirmed update for slot 11. -/
def c4tree : SlotTree := pushD exTree1 (rawOf ⟨11, 10, .confirmed⟩)

/-- Example subscription key (pubkey 5, processed, account). -/
def exKey0 : SubKey := SubKey.newK 5

/-- Example subscription key matching `exAccount` under an account
subscription at the Processed commitment. -/
def exKey : SubKey := (SubKey.newK 77).withStatus 1

/-- A session that subscribed to `exKey0` (SubID 0) and then `exKey`
(SubID 1). -/
def exSession : SessionState :=
  (processSub (processSub SessionState.fresh exKey0).2.2 exKey).2.2

/-- An incoming account update whose pubkey matches `exKey`. -/
def exAccount : PubSubAccount :=
  { pubkey := 77, owner := 9, lamports := 1, data := [1, 2], rent_epoch := 0,
    executable := false, slot := 100, slot_status := 1 }


/-! ## Association-list lemmas -/

theorem lookupA_insertA_self {κ α : Type} [DecidableEq κ]
    (m : List (κ × α)) (k : κ) (v : α) : lookupA (insertA m k v) k = some v := by
  induction m with
  | nil => simp [insertA, lookupA]
  | cons hd tl ih =>
      obtain ⟨k0, v0⟩ := hd
      by_cases h : k0 = k <;> simp [insertA, lookupA, h, ih]

theorem lookupA_insertA_ne {κ α : Type} [DecidableEq κ]
    (m : List (κ × α)) (k j : κ) (v : α) (h : k ≠ j) :
    lookupA (insertA m k v) j = lookupA m j := by
  induction m with
  | nil => simp [insertA, lookupA, h]
  | cons hd tl ih =>
      obtain ⟨k0, v0⟩ := hd
      by_cases h0 : k0 = k
      · subst h0; simp [insertA, lookupA, h]
      · simp [insertA, h0, lookupA, ih]

theorem lookupA_removeA_ne {κ α : Type} [DecidableEq κ]
    (m : List (κ × α)) (k j : κ) (h : k ≠ j) :
    lookupA (removeA m k) j = lookupA m j := by
  induction m with
  | nil => simp [removeA]
  | cons hd tl ih =>
      obtain ⟨k0, v0⟩ := hd
      by_cases h0 : k0 = k
      · subst h0
        simp [removeA, lookupA, h]
      · simp [removeA, h0, lookupA, ih]

theorem lookupA_removeA_self_of_nodup {κ α : Type} [DecidableEq κ]
    (m : List (κ × α)) (k : κ) (hnd : (m.map Prod.fst).Nodup) :
    lookupA (removeA m k) k = none := by
  induction m with
  | nil => simp [removeA, lookupA]
  | cons hd tl ih =>
      obtain ⟨k0, v0⟩ := hd
      simp only [List.map_cons, List.nodup_cons] at hnd
      by_cases h0 : k0 = k
      · subst h0
        simp only [removeA, if_pos rfl]
        -- k no longer occurs in tl, so the lookup fails
        clear ih
        induction tl with
        | nil => simp [lookupA]
        | cons hd2 tl2 ih2 =>
            obtain ⟨k2, v2⟩ := hd2
            simp only [List.map_cons, List.mem_cons, List.nodup_cons] at hnd
            have hk2 : k2 ≠ k0 := fun h => hnd.1 (Or.inl h.symm)
            simp only [lookupA, if_neg hk2]
            exact ih2 ⟨fun hm => hnd.1 (Or.inr hm), hnd.2.2⟩
      · simp only [removeA, if_neg h0, lookupA, if_neg h0]
        exact ih hnd.2

theorem lookupA_none_of_not_mem {κ α : Type} [DecidableEq κ]
    (m : List (κ × α)) (k : κ) (h : k ∉ m.map Prod.fst) : lookupA m k = none := by
  induction m with
  | nil => simp [lookupA]
  | cons hd tl ih =>
      obtain ⟨k0, v0⟩ := hd
      simp only [List.map_cons, List.mem_cons] at h
      push_neg at h
      simp [lookupA, Ne.symm h.1, ih h.2]

theorem lookupA_updA_self {κ α : Type} [DecidableEq κ]
    (m : List (κ × α)) (k : κ) (f : α → α) :
    lookupA (updA m k f) k = (lookupA m k).map f := by
  induction m with
  | nil => simp [updA, lookupA]
  | cons hd tl ih =>
      obtain ⟨k0, v0⟩ := hd
      by_cases h0 : k0 = k <;> simp [updA, lookupA, h0, ih]

theorem lookupA_updA_ne {κ α : Type} [DecidableEq κ]
    (m : List (κ × α)) (k j : κ) (f : α → α) (h : k ≠ j) :
    lookupA (updA m k f) j = lookupA m j := by
  induction m with
  | nil => simp [updA]
  | cons hd tl ih =>
      obtain ⟨k0, v0⟩ := hd
      by_cases h0 : k0 = k
      · subst h0; simp [updA, lookupA, h]
      · simp [updA, h0, lookupA, ih]

theorem mem_keys_removeA {κ α : Type} [DecidableEq κ]
    (m : List (κ × α)) (k j : κ) (h : j ∈ (removeA m k).map Prod.fst) :
    j ∈ m.map Prod.fst := by
  induction m with
  | nil => simp [removeA] at h
  | cons hd tl ih =>
      obtain ⟨k0, v0⟩ := hd
      by_cases h0 : k0 = k
      · simp only [removeA, if_pos h0] at h
        exact List.mem_cons_of_mem _ h
      · simp only [removeA, if_neg h0, List.map_cons, List.mem_cons] at h ⊢
        exact h.elim Or.inl (fun hm => Or.inr (ih hm))

theorem nodup_keys_removeA {κ α : Type} [DecidableEq κ]
    (m : List (κ × α)) (k : κ) (hnd : (m.map Prod.fst).Nodup) :
    ((removeA m k).map Prod.fst).Nodup := by
  induction m with
  | nil => simp [removeA]
  | cons hd tl ih =>
      obtain ⟨k0, v0⟩ := hd
      simp only [List.map_cons, List.nodup_cons] at hnd
      by_cases h0 : k0 = k
      · simpa [removeA, h0] using hnd.2
      · simp only [removeA, if_neg h0, List.map_cons, List.nodup_cons]
        exact ⟨fun hm => hnd.1 (mem_keys_removeA tl k k0 hm), ih hnd.2⟩

/-! ## Projection lemmas for the tree arena -/

theorem lookupA_updA_proj {κ α β : Type} [DecidableEq κ] (g : α → β) (f : α → α)
    (hf : ∀ x, g (f x) = g x) (m : List (κ × α)) (k j : κ) :
    (lookupA (updA m k f) j).map g = (lookupA m j).map g := by
  by_cases h : k = j
  · subst h
    rw [lookupA_updA_self]
    cases lookupA m k <;> simp [hf]
  · rw [lookupA_updA_ne _ _ _ _ h]

/-- `dropGo` never touches a protected id. -/
theorem dropGo_lookup_prot (fuel : Nat) (m : List (NodeId × SlotNode))
    (st prot : List NodeId) (id : NodeId) (hid : id ∈ prot) :
    lookupA (dropGo fuel m st prot) id = lookupA m id := by
  induction fuel generalizing m st with
  | zero => simp [dropGo]
  | succ f ih =>
      cases st with
      | nil => simp [dropGo]
      | cons hd rest =>
          by_cases hm : hd ∈ prot
          · simp only [dropGo, if_pos hm]
            exact ih m rest
          · have hne : hd ≠ id := fun h => hm (h ▸ hid)
            simp only [dropGo, if_neg hm]
            cases hh : lookupA m hd with
            | none => exact ih m rest
            | some n =>
                rw [ih (removeA m hd) (n.children.map Prod.snd ++ rest),
                    lookupA_removeA_ne m hd id hne]

/-- `pruneGo` only empties the children of protected ids and removes
unprotected ones: any children-insensitive projection of a protected node is
preserved. -/
theorem pruneGo_lookup_proj {β : Type} (g : SlotNode → β)
    (hg : ∀ n, g { n with children := [] } = g n)
    (fuel : Nat) (m : List (NodeId × SlotNode)) (st prot : List NodeId)
    (id : NodeId) (hid : id ∈ prot) :
    (lookupA (pruneGo fuel m st prot).2 id).map g = (lookupA m id).map g := by
  induction fuel generalizing m st with
  | zero => simp [pruneGo]
  | succ f ih =>
      cases st with
      | nil => simp [pruneGo]
      | cons hd rest =>
          simp only [pruneGo]
          cases hh : lookupA m hd with
          | none => exact ih m rest
          | some n =>
              by_cases hm : hd ∈ prot
              · simp only [if_pos hm]
                rw [ih _ _, lookupA_updA_proj g _ hg]
              · have hne : hd ≠ id := fun h => hm (h ▸ hid)
                simp only [if_neg hm]
                rw [ih _ _, lookupA_removeA_ne m hd id hne]

/-- The rival-pruning fold of the promotion loop preserves children-insensitive
projections of protected nodes. -/
theorem pruneFold_lookup_proj {β : Type} (g : SlotNode → β)
    (hg : ∀ n, g { n with children := [] } = g n)
    (rs : List NodeId) (prot : List NodeId) (id : NodeId) (hid : id ∈ prot)
    (acc : List Slot × List (NodeId × SlotNode)) :
    (lookupA (rs.foldl
        (fun acc r =>
          (acc.1 ++ (pruneGo (fuelOf acc.2) acc.2 [r] prot).1,
           (pruneGo (fuelOf acc.2) acc.2 [r] prot).2)) acc).2 id).map g =
      (lookupA acc.2 id).map g := by
  induction rs generalizing acc with
  | nil => simp
  | cons hd rest ih =>
      simp only [List.foldl_cons]
      rw [ih]
      exact pruneGo_lookup_proj g hg _ acc.2 [hd] prot id hid

/-- The promotion loop preserves children-insensitive projections of the new
root and of the old root (both are protected by strong references). -/
theorem rootGoFn_lookup_proj {β : Type} (g : SlotNode → β)
    (hg : ∀ n, g { n with children := [] } = g n)
    (fuel : Nat) (m : List (NodeId × SlotNode)) (nid oldRoot : NodeId)
    (cs : Slot) (pid : NodeId) (l : List RootedOrPrunedSlot)
    (m2 : List (NodeId × SlotNode)) (id : NodeId) (hid : id ∈ [nid, oldRoot])
    (h : rootGoFn fuel m nid oldRoot cs pid = some (l, m2)) :
    (lookupA m2 id).map g = (lookupA m id).map g := by
  induction fuel generalizing m cs pid l m2 with
  | zero => simp [rootGoFn] at h
  | succ f ih =>
      simp only [rootGoFn] at h
      cases hp : lookupA m pid with
      | none => rw [hp] at h; exact absurd h (by simp)
      | some p =>
          rw [hp] at h
          simp only at h
          cases hc : lookupA p.children cs with
          | none => rw [hc] at h; exact absurd h (by simp)
          | some cid =>
              rw [hc] at h
              simp only at h
              by_cases hr : p.status = SlotStatus.rooted
              · rw [if_pos hr] at h
                simp only [Option.some.injEq, Prod.mk.injEq] at h
                obtain ⟨hl, hm2⟩ := h
                subst hm2
                rw [pruneFold_lookup_proj g hg _ _ id hid,
                    dropGo_lookup_prot _ _ _ _ id hid,
                    lookupA_updA_proj g _ hg]
              · rw [if_neg hr] at h
                cases hpp : p.parent with
                | none => rw [hpp] at h; exact absurd h (by simp)
                | some gid =>
                    rw [hpp] at h
                    rw [Option.map_eq_some'] at h
                    obtain ⟨res, hres, heq⟩ := h
                    simp only [Prod.mk.injEq] at heq
                    obtain ⟨hl, hm2⟩ := heq
                    subst hm2
                    rw [ih _ _ _ _ _ hres]
                    rw [pruneFold_lookup_proj g hg _ _ id hid,
                        dropGo_lookup_prot _ _ _ _ id hid,
                        lookupA_updA_proj g _ hg]

/-! ## Shape lemmas for push results -/

/-- `SlotTree::root` returns a list headed by the freshly rooted slot (as a
rooted entry), makes that node the new root — so `current_root` becomes its
slot — and preserves the bootstrapping flag. -/
theorem rootFn_shape (t : SlotTree) (nid : NodeId) (l : List RootedOrPrunedSlot)
    (t2 : SlotTree) (h : rootFn t nid = some (l, t2)) :
    ∃ n rest, lookupA t.nodes nid = some n ∧
      l = RootedOrPrunedSlot.mk n.slot true :: rest ∧
      t2.root = nid ∧ t2.bootstrapping = t.bootstrapping ∧ rootSlot t2 = n.slot := by
  unfold rootFn at h
  cases hn : lookupA t.nodes nid with
  | none => rw [hn] at h; exact absurd h (by simp)
  | some n =>
      rw [hn] at h
      simp only at h
      cases hpp : n.parent with
      | none => rw [hpp] at h; exact absurd h (by simp)
      | some pid =>
          rw [hpp] at h
          simp only at h
          cases hgo : rootGoFn (fuelOf t.nodes) t.nodes nid t.root n.slot pid with
          | none => rw [hgo] at h; exact absurd h (by simp)
          | some res =>
              rw [hgo] at h
              simp only [Option.some.injEq, Prod.mk.injEq] at h
              obtain ⟨hl, ht2⟩ := h
              have hproj : (lookupA res.2 nid).map SlotNode.slot
                  = (lookupA t.nodes nid).map SlotNode.slot :=
                rootGoFn_lookup_proj SlotNode.slot (fun _ => rfl) _ _ _ _ _ _ _ _ nid
                  (by simp) hgo
              subst ht2
              refine ⟨n, res.1, rfl, hl.symm, rfl, rfl, ?_⟩
              unfold rootSlot
              by_cases hrn : t.root = nid
              · simp only [if_pos hrn]
                rw [hproj, hn]
                rfl
              · simp only [if_neg hrn]
                rw [dropGo_lookup_prot _ res.2 [t.root] [nid] nid (by simp), hproj, hn]
                rfl

/-- If the tracked-slot branch returns a rooted/pruned list, the status that
was written — the raw status — is Rooted. -/
theorem pushTracked_some_status (t : SlotTree) (raw : RawSlotData) (wid : NodeId)
    (n : SlotNode) (opid : NodeId) (op : SlotNode) (npid : NodeId) (np : SlotNode)
    (l : List RootedOrPrunedSlot) (t2 : SlotTree)
    (h : pushTracked t raw wid n opid op npid np = some (some l, t2)) :
    raw.status = .rooted := by
  unfold pushTracked at h
  simp only [] at h
  split at h
  · simp at h
  · rename_i nodesM heqM
    split at h
    · simp at h
    · rename_i nn heqN
      split at h
      · rename_i hguard
        rw [lookupA_updA_self, lookupA_updA_self] at heqN
        cases hx : lookupA nodesM wid with
        | none => rw [hx] at heqN; simp at heqN
        | some x =>
            rw [hx] at heqN
            simp only [Option.map_some'] at heqN
            cases heqN
            exact hguard
      · simp at h

/-- If the never-seen branch returns a rooted/pruned list, the raw status is
Rooted. -/
theorem pushNew_some_status (t : SlotTree) (raw : RawSlotData) (pid : NodeId)
    (p : SlotNode) (l : List RootedOrPrunedSlot) (t2 : SlotTree)
    (h : pushNew t raw pid p = some (some l, t2)) :
    raw.status = .rooted := by
  unfold pushNew at h
  simp only [] at h
  cases hc : lookupA p.children raw.slot with
  | none =>
      rw [hc] at h
      simp only at h
      split at h
      · simp at h
      · rename_i nn heqN
        split at h
        · rename_i hguard
          have hst := lookupA_updA_proj SlotNode.status
            (fun m => { m with children := insertA m.children raw.slot t.nextId })
            (fun _ => rfl)
            (insertA t.nodes t.nextId
              { parent := some pid, children := [], slot := raw.slot, status := raw.status })
            pid t.nextId
          rw [heqN, lookupA_insertA_self] at hst
          simp only [Option.map_some'] at hst
          rw [← hguard]
          exact (Option.some.inj hst).symm
        · simp at h
  | some oc =>
      rw [hc] at h
      simp only at h
      by_cases hoc : oc = t.nextId
      · rw [if_pos hoc] at h
        split at h
        · simp at h
        · rename_i nn heqN
          split at h
          · rename_i hguard
            have hst := lookupA_updA_proj SlotNode.status
              (fun m => { m with children := insertA m.children raw.slot t.nextId })
              (fun _ => rfl)
              (insertA t.nodes t.nextId
                { parent := some pid, children := [], slot := raw.slot, status := raw.status })
              pid t.nextId
            rw [heqN, lookupA_insertA_self] at hst
            simp only [Option.map_some'] at hst
            rw [← hguard]
            exact (Option.some.inj hst).symm
          · simp at h
      · rw [if_neg hoc] at h
        split at h
        · simp at h
        · rename_i nn heqN
          split at h
          · rename_i hguard
            rw [dropGo_lookup_prot _ _ [oc] [t.root, t.nextId] t.nextId (by simp)] at heqN
            have hst := lookupA_updA_proj SlotNode.status
              (fun m => { m with children := insertA m.children raw.slot t.nextId })
              (fun _ => rfl)
              (insertA t.nodes t.nextId
                { parent := some pid, children := [], slot := raw.slot, status := raw.status })
              pid t.nextId
            rw [heqN, lookupA_insertA_self] at hst
            simp only [Option.map_some'] at hst
            rw [← hguard]
            exact (Option.some.inj hst).symm
          · simp at h

/-- Re-parenting a node and attaching it below a parent do not change its
status projection. -/
theorem status_after_reparent_attach (base : List (NodeId × SlotNode))
    (sid pid : NodeId) (slotv : Slot) (v : SlotStatus)
    (hbase : (lookupA base sid).map SlotNode.status = some v) :
    (lookupA (updA (updA base sid (fun m => { m with parent := some pid })) pid
        (fun m => { m with children := insertA m.children slotv sid }))
      sid).map SlotNode.status = some v := by
  rw [lookupA_updA_proj SlotNode.status
        (fun m => { m with children := insertA m.children slotv sid }) (fun _ => rfl),
      lookupA_updA_proj SlotNode.status
        (fun m => { m with parent := some pid }) (fun _ => rfl)]
  exact hbase

/-- If the bootstrap attach step returns a rooted/pruned list, the raw status
is Rooted. -/
theorem bootstrapAttach_some_status (t : SlotTree) (raw : RawSlotData) (pid : NodeId)
    (nodesA : List (NodeId × SlotNode)) (l : List RootedOrPrunedSlot) (t2 : SlotTree)
    (h : bootstrapAttach t raw pid nodesA = some (some l, t2)) :
    raw.status = .rooted := by
  unfold bootstrapAttach at h
  cases hs : lookupA t.lookup raw.slot with
  | some wsid =>
      rw [hs] at h
      simp only at h
      cases hu : lookupA nodesA wsid with
      | none => rw [hu] at h; simp at h
      | some y =>
          rw [hu] at h
          simp only [] at h
          have hbase : (lookupA (updA nodesA wsid
              (fun m => { m with status := raw.status })) wsid).map SlotNode.status
              = some raw.status := by
            rw [lookupA_updA_self, hu]
            rfl
          split at h
          · rename_i sn pc heq1 heq2
            have h3 := status_after_reparent_attach _ wsid pid sn.slot raw.status hbase
            split at h
            · simp at h
            · rename_i nn heqN
              split at h
              · rename_i hguard
                cases hc : lookupA pc.children sn.slot with
                | none =>
                    rw [hc] at heqN
                    simp only at heqN
                    rw [heqN] at h3
                    simp only [Option.map_some'] at h3
                    rw [← hguard]
                    exact (Option.some.inj h3).symm
                | some oc =>
                    rw [hc] at heqN
                    simp only at heqN
                    by_cases hoc : oc = wsid
                    · rw [if_pos hoc] at heqN
                      rw [heqN] at h3
                      simp only [Option.map_some'] at h3
                      rw [← hguard]
                      exact (Option.some.inj h3).symm
                    · rw [if_neg hoc] at heqN
                      rw [dropGo_lookup_prot _ _ [oc] [t.root, wsid] wsid (by simp)] at heqN
                      rw [heqN] at h3
                      simp only [Option.map_some'] at h3
                      rw [← hguard]
                      exact (Option.some.inj h3).symm
              · simp at h
          · simp at h
  | none =>
      rw [hs] at h
      simp only at h
      have hbase : (lookupA (insertA nodesA t.nextId
          { parent := none, children := [], slot := raw.slot, status := raw.status })
          t.nextId).map SlotNode.status = some raw.status := by
        rw [lookupA_insertA_self]
        rfl
      split at h
      · rename_i sn pc heq1 heq2
        have h3 := status_after_reparent_attach _ t.nextId pid sn.slot raw.status hbase
        split at h
        · simp at h
        · rename_i nn heqN
          split at h
          · rename_i hguard
            cases hc : lookupA pc.children sn.slot with
            | none =>
                rw [hc] at heqN
                simp only at heqN
                rw [heqN] at h3
                simp only [Option.map_some'] at h3
                rw [← hguard]
                exact (Option.some.inj h3).symm
            | some oc =>
                rw [hc] at heqN
                simp only at heqN
                by_cases hoc : oc = t.nextId
                · rw [if_pos hoc] at heqN
                  rw [heqN] at h3
                  simp only [Option.map_some'] at h3
                  rw [← hguard]
                  exact (Option.some.inj h3).symm
                · rw [if_neg hoc] at heqN
                  rw [dropGo_lookup_prot _ _ [oc] [t.root, t.nextId] t.nextId (by simp)] at heqN
                  rw [heqN] at h3
                  simp only [Option.map_some'] at h3
                  rw [← hguard]
                  exact (Option.some.inj h3).symm
          · simp at h
      · simp at h

/-- If bootstrap returns a rooted/pruned list, the raw status is Rooted. -/
theorem bootstrapT_some_status (t : SlotTree) (raw : RawSlotData)
    (l : List RootedOrPrunedSlot) (t2 : SlotTree)
    (h : bootstrapT t raw = some (some l, t2)) : raw.status = .rooted := by
  unfold bootstrapT at h
  cases hp : lookupA t.lookup raw.parent with
  | none =>
      rw [hp] at h
      simp only at h
      exact bootstrapAttach_some_status _ _ _ _ _ _ h
  | some wpid =>
      rw [hp] at h
      simp only at h
      cases hw : lookupA t.nodes wpid with
      | none => rw [hw] at h; simp at h
      | some wp =>
          rw [hw] at h
          simp only [] at h
          exact bootstrapAttach_some_status _ _ _ _ _ _ h

/-- If `SlotTree::push` returns a rooted/pruned list, the pushed status was
Rooted (i.e. the update was Finalized). -/
theorem pushT_some_status (t : SlotTree) (raw : RawSlotData)
    (l : List RootedOrPrunedSlot) (t2 : SlotTree)
    (h : pushT t raw = some (some l, t2)) : raw.status = .rooted := by
  unfold pushT at h
  split at h
  · exact bootstrapT_some_status _ _ _ _ h
  · split at h
    · simp at h
    · cases hs : lookupA t.lookup raw.slot with
      | some wid =>
          rw [hs] at h
          simp only at h
          cases hn : lookupA t.nodes wid with
          | none => rw [hn] at h; simp at h
          | some n =>
              rw [hn] at h
              simp only at h
              cases hpp : n.parent with
              | none => rw [hpp] at h; simp at h
              | some opid =>
                  rw [hpp] at h
                  simp only at h
                  cases hop : lookupA t.nodes opid with
                  | none => rw [hop] at h; simp at h
                  | some op =>
                      rw [hop] at h
                      simp only at h
                      cases hlp : lookupA t.lookup raw.parent with
                      | none => rw [hlp] at h; simp at h
                      | some npid =>
                          rw [hlp] at h
                          simp only at h
                          cases hnp : lookupA t.nodes npid with
                          | none => rw [hnp] at h; simp at h
                          | some np =>
                              rw [hnp] at h
                              simp only at h
                              exact pushTracked_some_status _ _ _ _ _ _ _ _ _ _ h
      | none =>
          rw [hs] at h
          simp only at h
          cases hlp : lookupA t.lookup raw.parent with
          | none => rw [hlp] at h; simp at h
          | some pid =>
              rw [hlp] at h
              simp only at h
              cases hp2 : lookupA t.nodes pid with
              | none => rw [hp2] at h; simp at h
              | some p =>
                  rw [hp2] at h
                  simp only at h
                  exact pushNew_some_status _ _ _ _ _ _ h

/-- A push whose status does not root never returns a list. -/
theorem pushT_inner_none (t : SlotTree) (raw : RawSlotData)
    (res : Option (List RootedOrPrunedSlot)) (t2 : SlotTree)
    (h : pushT t raw = some (res, t2)) (hs : raw.status ≠ .rooted) : res = none := by
  cases res with
  | none => rfl
  | some l => exact absurd (pushT_some_status t raw l t2 h) hs

/-- The list returned by the tracked branch is headed by the new root. -/
theorem pushTracked_some_shape (t : SlotTree) (raw : RawSlotData) (wid : NodeId)
    (n : SlotNode) (opid : NodeId) (op : SlotNode) (npid : NodeId) (np : SlotNode)
    (l : List RootedOrPrunedSlot) (t2 : SlotTree)
    (h : pushTracked t raw wid n opid op npid np = some (some l, t2)) :
    ∃ rest, l = RootedOrPrunedSlot.mk (rootSlot t2) true :: rest := by
  unfold pushTracked at h
  simp only [] at h
  split at h
  · simp at h
  · rename_i nodesM heqM
    split at h
    · simp at h
    · rename_i nn heqN
      split at h
      · rw [Option.map_eq_some'] at h
        obtain ⟨rt, hrt, heq⟩ := h
        simp only [Prod.mk.injEq, Option.some.injEq] at heq
        obtain ⟨hl, ht⟩ := heq
        obtain ⟨n2, rest, -, hlist, -, -, hslot⟩ := rootFn_shape _ _ _ _ hrt
        subst ht
        exact ⟨rest, by rw [← hl, hlist, hslot]⟩
      · simp at h

/-- The list returned by the never-seen branch is headed by the new root. -/
theorem pushNew_some_shape (t : SlotTree) (raw : RawSlotData) (pid : NodeId)
    (p : SlotNode) (l : List RootedOrPrunedSlot) (t2 : SlotTree)
    (h : pushNew t raw pid p = some (some l, t2)) :
    ∃ rest, l = RootedOrPrunedSlot.mk (rootSlot t2) true :: rest := by
  unfold pushNew at h
  simp only [] at h
  split at h
  · simp at h
  · rename_i nn heqN
    split at h
    · rw [Option.map_eq_some'] at h
      obtain ⟨rt, hrt, heq⟩ := h
      simp only [Prod.mk.injEq, Option.some.injEq] at heq
      obtain ⟨hl, ht⟩ := heq
      obtain ⟨n2, rest, -, hlist, -, -, hslot⟩ := rootFn_shape _ _ _ _ hrt
      subst ht
      exact ⟨rest, by rw [← hl, hlist, hslot]⟩
    · simp at h

/-- The list returned by the bootstrap attach step is headed by the new root. -/
theorem bootstrapAttach_some_shape (t : SlotTree) (raw : RawSlotData) (pid : NodeId)
    (nodesA : List (NodeId × SlotNode)) (l : List RootedOrPrunedSlot) (t2 : SlotTree)
    (h : bootstrapAttach t raw pid nodesA = some (some l, t2)) :
    ∃ rest, l = RootedOrPrunedSlot.mk (rootSlot t2) true :: rest := by
  unfold bootstrapAttach at h
  simp only [] at h
  split at h
  · simp at h
  · rename_i sres heqS
    split at h
    · rename_i sn pc heq1 heq2
      split at h
      · simp at h
      · rename_i nn heqN
        split at h
        · split at h
          · simp at h
          · rename_i rt hrf
            simp only [Option.some.injEq, Prod.mk.injEq] at h
            obtain ⟨hl, ht⟩ := h
            obtain ⟨n2, rest, -, hlist, -, -, hslot⟩ := rootFn_shape _ _ _ _ hrf
            refine ⟨rest, ?_⟩
            rw [← hl, hlist]
            have hrs : rootSlot t2 = rootSlot rt.2 := by
              rw [← ht]
              rfl
            rw [hrs, hslot]
        · simp at h
    · simp at h

/-- The list returned by bootstrap is headed by the new root. -/
theorem bootstrapT_some_shape (t : SlotTree) (raw : RawSlotData)
    (l : List RootedOrPrunedSlot) (t2 : SlotTree)
    (h : bootstrapT t raw = some (some l, t2)) :
    ∃ rest, l = RootedOrPrunedSlot.mk (rootSlot t2) true :: rest := by
  unfold bootstrapT at h
  split at h
  · simp at h
  · rename_i pres heqP
    exact bootstrapAttach_some_shape _ _ _ _ _ _ h

/-- C2 auxiliary: the list returned by `SlotTree::push` is headed by a rooted
entry for the new current root. -/
theorem pushT_some_shape (t : SlotTree) (raw : RawSlotData)
    (l : List RootedOrPrunedSlot) (t2 : SlotTree)
    (h : pushT t raw = some (some l, t2)) :
    ∃ rest, l = RootedOrPrunedSlot.mk (rootSlot t2) true :: rest := by
  unfold pushT at h
  split at h
  · exact bootstrapT_some_shape _ _ _ _ h
  · split at h
    · simp at h
    · cases hs : lookupA t.lookup raw.slot with
      | some wid =>
          rw [hs] at h
          simp only at h
          cases hn : lookupA t.nodes wid with
          | none => rw [hn] at h; simp at h
          | some n =>
              rw [hn] at h
              simp only at h
              cases hpp : n.parent with
              | none => rw [hpp] at h; simp at h
              | some opid =>
                  rw [hpp] at h
                  simp only at h
                  cases hop : lookupA t.nodes opid with
                  | none => rw [hop] at h; simp at h
                  | some op =>
                      rw [hop] at h
                      simp only at h
                      cases hlp : lookupA t.lookup raw.parent with
                      | none => rw [hlp] at h; simp at h
                      | some npid =>
                          rw [hlp] at h
                          simp only at h
                          cases hnp : lookupA t.nodes npid with
                          | none => rw [hnp] at h; simp at h
                          | some np =>
                              rw [hnp] at h
                              simp only at h
                              exact pushTracked_some_shape _ _ _ _ _ _ _ _ _ _ h
      | none =>
          rw [hs] at h
          simp only at h
          cases hlp : lookupA t.lookup raw.parent with
          | none => rw [hlp] at h; simp at h
          | some pid =>
              rw [hlp] at h
              simp only at h
              cases hp2 : lookupA t.nodes pid with
              | none => rw [hp2] at h; simp at h
              | some p =>
                  rw [hp2] at h
                  simp only at h
                  exact pushNew_some_shape _ _ _ _ _ _ h

/-! ## Buffer lemmas -/

theorem removeA_of_lookup_none {κ α : Type} [DecidableEq κ]
    (m : List (κ × α)) (k : κ) (h : lookupA m k = none) : removeA m k = m := by
  induction m with
  | nil => rfl
  | cons hd tl ih =>
      obtain ⟨k0, v0⟩ := hd
      by_cases h0 : k0 = k
      · subst h0; simp [lookupA] at h
      · simp only [lookupA, if_neg h0] at h
        simp [removeA, h0, ih h]

theorem lookupA_filter_keyFalse {κ α : Type} [DecidableEq κ]
    (m : List (κ × α)) (p : κ × α → Bool) (k : κ) (h : ∀ v, p (k, v) = false) :
    lookupA (m.filter p) k = none := by
  induction m with
  | nil => simp [lookupA]
  | cons hd tl ih =>
      obtain ⟨k0, v0⟩ := hd
      by_cases h0 : k0 = k
      · subst h0
        simp [List.filter_cons, h v0, ih]
      · cases hp : p (k0, v0) <;> simp [List.filter_cons, hp, lookupA, h0, ih]

theorem lookupA_filter_keyTrue {κ α : Type} [DecidableEq κ]
    (m : List (κ × α)) (p : κ × α → Bool) (k : κ) (h : ∀ v, p (k, v) = true) :
    lookupA (m.filter p) k = lookupA m k := by
  induction m with
  | nil => rfl
  | cons hd tl ih =>
      obtain ⟨k0, v0⟩ := hd
      by_cases h0 : k0 = k
      · subst h0
        simp [List.filter_cons, h v0, lookupA, ih]
      · cases hp : p (k0, v0) <;> simp [List.filter_cons, hp, lookupA, h0, ih]

theorem replayLoop_lookup_none (l : List RootedOrPrunedSlot)
    (m : List (Slot × List PubSubAccount)) (k : Slot) (h : lookupA m k = none) :
    lookupA (replayLoop l m).1 k = none := by
  induction l generalizing m with
  | nil => simpa [replayLoop] using h
  | cons s rest ih =>
      simp only [replayLoop]
      refine ih _ ?_
      by_cases hk : s.slot = k
      · subst hk
        rw [removeA_of_lookup_none _ _ h]
        exact h
      · rw [lookupA_removeA_ne _ _ _ hk]
        exact h

theorem replayLoop_lookup_removed (l : List RootedOrPrunedSlot)
    (m : List (Slot × List PubSubAccount)) (k : Slot)
    (hm : (m.map Prod.fst).Nodup) (hk : k ∈ l.map (fun s => s.slot)) :
    lookupA (replayLoop l m).1 k = none := by
  induction l generalizing m with
  | nil => simp at hk
  | cons s rest ih =>
      simp only [List.map_cons, List.mem_cons] at hk
      simp only [replayLoop]
      rcases hk with hk | hk
      · subst hk
        exact replayLoop_lookup_none rest _ _ (lookupA_removeA_self_of_nodup m _ hm)
      · exact ih _ (nodup_keys_removeA m _ hm) hk

theorem finalizedOut_congr (l : List RootedOrPrunedSlot)
    (m1 m2 : List (Slot × List PubSubAccount))
    (h : ∀ s ∈ l, lookupA m1 s.slot = lookupA m2 s.slot) :
    finalizedOut m1 l = finalizedOut m2 l := by
  induction l with
  | nil => rfl
  | cons s rest ih =>
      simp only [finalizedOut]
      rw [h s (List.mem_cons_self s rest), ih (fun s2 hs2 => h s2 (List.mem_cons_of_mem s hs2))]

/-- The replay loop of the Buffer emits exactly what the spec prescribes for
the list, provided the listed slots are distinct: every rooted entry's bucket,
with wire status 3, in list order. -/
theorem replayLoop_out (l : List RootedOrPrunedSlot)
    (m : List (Slot × List PubSubAccount))
    (hl : (l.map (fun s => s.slot)).Nodup) :
    (replayLoop l m).2 = finalizedOut m l := by
  induction l generalizing m with
  | nil => rfl
  | cons s rest ih =>
      simp only [List.map_cons, List.nodup_cons] at hl
      simp only [replayLoop, finalizedOut]
      rw [ih _ hl.2]
      congr 1
      refine finalizedOut_congr rest _ _ (fun s2 hs2 => ?_)
      refine lookupA_removeA_ne _ _ _ (fun hEq => hl.1 ?_)
      rw [hEq]
      exact List.mem_map_of_mem (fun s3 => s3.slot) hs2

/-! ## SubscriptionsMap invariant lemmas -/

theorem mem_keys_insertA {κ α : Type} [DecidableEq κ]
    (m : List (κ × α)) (k j : κ) (v : α) (h : j ∈ (insertA m k v).map Prod.fst) :
    j ∈ m.map Prod.fst ∨ j = k := by
  induction m with
  | nil =>
      simp only [insertA, List.map_cons, List.map_nil, List.mem_singleton] at h
      exact Or.inr h
  | cons hd tl ih =>
      obtain ⟨k0, v0⟩ := hd
      by_cases h0 : k0 = k
      · subst h0
        rw [show insertA ((k0, v0) :: tl) k0 v = (k0, v) :: tl by simp [insertA]] at h
        simp only [List.map_cons, List.mem_cons] at h
        rcases h with h | h
        · exact Or.inr h
        · exact Or.inl (List.mem_cons_of_mem _ h)
      · simp only [insertA, if_neg h0, List.map_cons, List.mem_cons] at h
        rcases h with h | h
        · exact Or.inl (by simp [h])
        · rcases ih h with h1 | h1
          · exact Or.inl (List.mem_cons_of_mem _ h1)
          · exact Or.inr h1

theorem nodup_keys_insertA {κ α : Type} [DecidableEq κ]
    (m : List (κ × α)) (k : κ) (v : α) (h : (m.map Prod.fst).Nodup) :
    ((insertA m k v).map Prod.fst).Nodup := by
  induction m with
  | nil => simp [insertA]
  | cons hd tl ih =>
      obtain ⟨k0, v0⟩ := hd
      simp only [List.map_cons, List.nodup_cons] at h
      by_cases h0 : k0 = k
      · subst h0
        rw [show insertA ((k0, v0) :: tl) k0 v = (k0, v) :: tl by simp [insertA]]
        simp only [List.map_cons, List.nodup_cons]
        exact h
      · simp only [insertA, if_neg h0, List.map_cons, List.nodup_cons]
        refine ⟨fun hm => ?_, ih h.2⟩
        rcases mem_keys_insertA tl k k0 v hm with h1 | h1
        · exact h.1 h1
        · exact h0 h1

/-- A fresh insert preserves well-formedness. -/
theorem smWF_insert (m : SubscriptionsMap) (key : SubKey) (id : Nat)
    (hwf : smWF m) (hk : lookupA m.key2id key = none)
    (hi : lookupA m.id2key id = none) : smWF (smInsert m key id) := by
  obtain ⟨hn1, hn2, hc⟩ := hwf
  refine ⟨nodup_keys_insertA _ _ _ hn1, nodup_keys_insertA _ _ _ hn2, ?_⟩
  intro key2 id2
  unfold smInsert
  by_cases hkey : key2 = key
  · subst hkey
    rw [lookupA_insertA_self]
    by_cases hid : id2 = id
    · subst hid
      rw [lookupA_insertA_self]
      simp
    · rw [lookupA_insertA_ne _ _ _ _ (fun hEq => hid hEq.symm)]
      constructor
      · intro h
        exact absurd (Option.some.inj h) (fun hEq => hid hEq.symm)
      · intro h
        exact absurd ((hc key2 id2).mpr h) (by simp [hk])
  · rw [lookupA_insertA_ne _ _ _ _ (fun hEq => hkey hEq.symm)]
    by_cases hid : id2 = id
    · subst hid
      rw [lookupA_insertA_self]
      constructor
      · intro h
        exact absurd ((hc key2 id2).mp h) (by simp [hi])
      · intro h
        exact absurd (Option.some.inj h) (fun hEq => hkey hEq.symm)
    · rw [lookupA_insertA_ne _ _ _ _ (fun hEq => hid hEq.symm)]
      exact hc key2 id2

/-- `remove_by_key` preserves well-formedness. -/
theorem smWF_removeByKey (m : SubscriptionsMap) (key : SubKey)
    (hwf : smWF m) : smWF (smRemoveByKey m key).1 := by
  obtain ⟨hn1, hn2, hc⟩ := hwf
  unfold smRemoveByKey
  cases hl : lookupA m.key2id key with
  | none =>
      simp only
      rw [removeA_of_lookup_none _ _ hl]
      exact ⟨hn1, hn2, hc⟩
  | some i =>
      simp only
      refine ⟨nodup_keys_removeA _ _ hn1, nodup_keys_removeA _ _ hn2, ?_⟩
      intro key2 id2
      by_cases hkey : key2 = key
      · subst hkey
        rw [lookupA_removeA_self_of_nodup _ _ hn1]
        constructor
        · intro h
          exact absurd h (by simp)
        · intro h
          by_cases hid : id2 = i
          · subst hid
            rw [lookupA_removeA_self_of_nodup _ _ hn2] at h
            exact absurd h (by simp)
          · rw [lookupA_removeA_ne _ _ _ (fun hEq => hid hEq.symm)] at h
            have h2 := (hc key2 id2).mpr h
            rw [hl] at h2
            exact absurd (Option.some.inj h2) (fun hEq => hid hEq.symm)
      · rw [lookupA_removeA_ne _ _ _ (fun hEq => hkey hEq.symm)]
        by_cases hid : id2 = i
        · subst hid
          rw [lookupA_removeA_self_of_nodup _ _ hn2]
          constructor
          · intro h
            have h2 := (hc key2 id2).mp h
            have h3 := (hc key id2).mp hl
            rw [h2] at h3
            exact absurd (Option.some.inj h3) (fun hEq => hkey hEq)
          · intro h
            exact absurd h (by simp)
        · rw [lookupA_removeA_ne _ _ _ (fun hEq => hid hEq.symm)]
          exact hc key2 id2

/-- `remove_by_id` preserves well-formedness. -/
theorem smWF_removeById (m : SubscriptionsMap) (id : Nat)
    (hwf : smWF m) : smWF (smRemoveById m id).1 := by
  obtain ⟨hn1, hn2, hc⟩ := hwf
  unfold smRemoveById
  cases hl : lookupA m.id2key id with
  | none =>
      simp only
      rw [removeA_of_lookup_none _ _ hl]
      exact ⟨hn1, hn2, hc⟩
  | some key0 =>
      simp only
      refine ⟨nodup_keys_removeA _ _ hn1, nodup_keys_removeA _ _ hn2, ?_⟩
      intro key2 id2
      by_cases hid : id2 = id
      · subst hid
        rw [lookupA_removeA_self_of_nodup _ _ hn2]
        constructor
        · intro h
          by_cases hkey : key2 = key0
          · subst hkey
            rw [lookupA_removeA_self_of_nodup _ _ hn1] at h
            exact absurd h (by simp)
          · rw [lookupA_removeA_ne _ _ _ (fun hEq => hkey hEq.symm)] at h
            have h2 := (hc key2 id2).mp h
            rw [hl] at h2
            exact absurd (Option.some.inj h2) (fun hEq => hkey hEq.symm)
        · intro h
          exact absurd h (by simp)
      · rw [lookupA_removeA_ne _ _ _ (fun hEq => hid hEq.symm)]
        by_cases hkey : key2 = key0
        · subst hkey
          rw [lookupA_removeA_self_of_nodup _ _ hn1]
          constructor
          · intro h
            exact absurd h (by simp)
          · intro h
            have h2 := (hc key2 id2).mpr h
            have h3 := (hc key2 id).mpr hl
            rw [h2] at h3
            exact absurd (Option.some.inj h3) (fun hEq => hid hEq)
        · rw [lookupA_removeA_ne _ _ _ (fun hEq => hkey hEq.symm)]
          exact hc key2 id2

/-- Every fresh operation preserves well-formedness. -/
theorem smWF_applyOp (m : SubscriptionsMap) (op : MapOp)
    (hwf : smWF m) (hf : opFresh m op) : smWF (applyOp m op) := by
  cases op with
  | ins key id => exact smWF_insert m key id hwf hf.1 hf.2
  | rmKey key => exact smWF_removeByKey m key hwf
  | rmId id => exact smWF_removeById m id hwf
  | clearAll => exact ⟨List.nodup_nil, List.nodup_nil, by intro k i; simp [smDrain, lookupA]⟩

/-- A fresh run from a well-formed map stays well-formed. -/
theorem smWF_foldl (ops : List MapOp) (m : SubscriptionsMap)
    (hwf : smWF m) (hf : freshRun m ops) : smWF (ops.foldl applyOp m) := by
  induction ops generalizing m with
  | nil => exact hwf
  | cons op rest ih =>
      exact ih (applyOp m op) (smWF_applyOp m op hwf hf.1) hf.2

theorem lookupA_filter_none {κ α : Type} [DecidableEq κ]
    (m : List (κ × α)) (p : κ × α → Bool) (k : κ) (h : lookupA m k = none) :
    lookupA (m.filter p) k = none := by
  induction m with
  | nil => simp [lookupA]
  | cons hd tl ih =>
      obtain ⟨k0, v0⟩ := hd
      by_cases h0 : k0 = k
      · subst h0
        simp [lookupA] at h
      · simp only [lookupA, if_neg h0] at h
        cases hp : p (k0, v0) <;> simp [List.filter_cons, hp, lookupA, h0, ih h]

/-! ## Claims -/

/-- C10: the conversion from a broker slot_status byte to Commitment is total
and never fails: 2 maps to Confirmed, 3 maps to Finalized, and every other
u8 value — including 0 and every value greater than 3, which the wire format
declares impossible — maps to Processed. -/
theorem c10_commitment_from_u8_total (b : Nat) (hb : b < 256) :
    (commitmentFromU8 b = .confirmed ↔ b = 2) ∧
    (commitmentFromU8 b = .finalized ↔ b = 3) ∧
    (b ≠ 2 → b ≠ 3 → commitmentFromU8 b = .processed) := by
  by_cases h2 : b = 2
  · subst h2
    simp [commitmentFromU8]
  · by_cases h3 : b = 3
    · subst h3
      simp [commitmentFromU8]
    · simp [commitmentFromU8, h2, h3]

/-- C10 witness: the conversion at the out-of-range byte 7. -/
theorem c10_witness :
    (7 : Nat) < 256 ∧
    ((commitmentFromU8 7 = .confirmed ↔ (7 : Nat) = 2) ∧
     (commitmentFromU8 7 = .finalized ↔ (7 : Nat) = 3) ∧
     ((7 : Nat) ≠ 2 → (7 : Nat) ≠ 3 → commitmentFromU8 7 = .processed)) :=
  ⟨by decide, c10_commitment_from_u8_total 7 (by decide)⟩

/-- C7: account/program subscribe is idempotent per session: processing the
same subscription key twice returns the same SubID both times, the second
request sends no message to the router, and it leaves the session's
SubscriptionsMap and next-SubID counter unchanged. -/
theorem c7_subscribe_idempotent (s : SessionState) (key : SubKey) :
    (processSub (processSub s key).2.2 key).1 = (processSub s key).1 ∧
    (processSub (processSub s key).2.2 key).2.1 = [] ∧
    (processSub (processSub s key).2.2 key).2.2 = (processSub s key).2.2 := by
  unfold processSub
  cases h : lookupA s.subscriptions.key2id key with
  | some id => simp [h]
  | none => simp [h, smInsert, lookupA_insertA_self]

/-- C3 counterexample: on a freshly constructed tree (still bootstrapping,
current root slot 0) the stale update (slot 0, parent 0, Processed) — which
satisfies `slot ≤ current_root.slot` — returns none yet mutates the tree:
the root's status is overwritten from Rooted to Processed. -/
theorem c3_counterexample :
    (0 : Nat) ≤ rootSlot SlotTree.new ∧
    (pushT SlotTree.new (rawOf ⟨0, 0, .processed⟩)).map
        (fun p => (p.1, statusOfSlot p.2 0)) = some (none, some .processed) ∧
    statusOfSlot SlotTree.new 0 = some .rooted := by decide

/-- C3 (amended): once bootstrapping is over, a push whose slot is at or below
the current root slot returns none and leaves the tree completely unchanged.
(While bootstrapping, the staleness check is skipped and the tree can mutate:
see the counterexample.) -/
theorem c3_stale_push_no_mutation (t : SlotTree) (raw : RawSlotData)
    (hb : t.bootstrapping = false) (hs : raw.slot ≤ rootSlot t) :
    pushT t raw = some (none, t) := by
  unfold pushT
  simp [hb, hs]

/-- C3 witness: a stale push against the bootstrapped tree rooted at 10. -/
theorem c3_witness :
    exTree1.bootstrapping = false ∧ (9 : Nat) ≤ rootSlot exTree1 ∧
    pushT exTree1 (rawOf ⟨9, 8, .processed⟩) = some (none, exTree1) :=
  ⟨by decide, by decide,
   c3_stale_push_no_mutation exTree1 (rawOf ⟨9, 8, .processed⟩) (by decide) (by decide)⟩

/-- C5 evaluation at the failing input: pushing (slot 5, parent 1, Processed)
into a fresh tree attaches a node for slot 5 under the synthetic root — so
slot 5 is reachable from the root — but the bootstrap path never inserts it
into `lookup`, whose keys stay {0}; the lookup-key set therefore differs from
the reachable-slot set {0, 5} in a state reached by a single push. -/
theorem c5_lookup_misses_bootstrap_node :
    ∃ t, pushT SlotTree.new (rawOf ⟨5, 1, .processed⟩) = some (none, t) ∧
      reachableSlots t = [0, 5] ∧ t.lookup = [(0, 0)] ∧
      lookupA t.lookup 5 = none :=
  ⟨pushD SlotTree.new (rawOf ⟨5, 1, .processed⟩), by decide, by decide, by decide, by decide⟩

/-- C8 evaluation at the failing input: the session assigned SubID 1 to the
key `exKey` (its subscribe response carried 1), but the dispatched
`AccountUpdatedMessage` built from a matching account carries
`sub = SubID::default() = 0`, and the session handler serializes it
unchanged — so the notification's `params.subscription` is 0, not the id the
receiving session assigned to the matching subscription key. -/
theorem c8_notification_carries_default_sub :
    lookupA exSession.subscriptions.key2id exKey = some 1 ∧
    (accountUpdatedOf ⟨exAccount, .account⟩).key = exKey ∧
    (sessionNotify exSession (accountUpdatedOf ⟨exAccount, .account⟩)).subscription = 0 ∧
    (0 : Nat) ≠ 1 := by decide

/-- C6 counterexample: two inserts reusing the same key (ids 0 then 1) break
the biconditional: afterwards `id2key[0] = exKey0` while
`key2id[exKey0] = 1`. -/
theorem c6_counterexample :
    ¬ smConsistent (runOps [MapOp.ins exKey0 0, MapOp.ins exKey0 1]) := by
  intro hcons
  have h0 : lookupA (runOps [MapOp.ins exKey0 0, MapOp.ins exKey0 1]).id2key 0
      = some exKey0 := by decide
  have h1 := (hcons exKey0 0).mpr h0
  have h2 : lookupA (runOps [MapOp.ins exKey0 0, MapOp.ins exKey0 1]).key2id exKey0
      = some 1 := by decide
  rw [h1] at h2
  exact absurd (Option.some.inj h2) (by decide)

/-- C6 (amended): for every operation sequence from the empty map in which
every insert is fresh — its key and id not already mapped, which is how
`WsSession` always calls insert — the bidirectional invariant
`key2id[k] = i ⇔ id2key[i] = k` holds afterwards; and drain leaves both
directions empty, unconditionally. -/
theorem c6_bidirectional (ops : List MapOp)
    (hf : freshRun SubscriptionsMap.empty ops) :
    smConsistent (runOps ops) ∧
    ∀ m : SubscriptionsMap, applyOp m .clearAll = SubscriptionsMap.empty := by
  constructor
  · have hwf : smWF (runOps ops) := by
      refine smWF_foldl ops SubscriptionsMap.empty ⟨by decide, by decide, ?_⟩ hf
      intro k i
      simp [SubscriptionsMap.empty, lookupA]
    exact hwf.2.2
  · intro m
    rfl

/-- C6 witness: a single fresh insert yields a consistent map. -/
theorem c6_witness : smConsistent (runOps [MapOp.ins exKey0 0]) :=
  (c6_bidirectional [MapOp.ins exKey0 0] ⟨⟨rfl, rfl⟩, trivial⟩).1

/-- C1: root promotion prunes rival forks. Starting from the SlotTree with
root 10 (status Rooted) and children 11 → {12, 13} and 14 → {15} — slots 14
and 15 play the spec's 11b and 12b — where all non-root nodes are Processed,
pushing the SlotUpdate (slot 12, parent 11, Finalized) returns Some list
headed by the originally-rooted 12, whose rooted entries are exactly
{12, 11} and whose pruned entries are exactly {13, 14, 15}; afterwards
`current_root()` is 12. -/
theorem c1_rooting_prunes_rivals :
    ∃ t, pushT exTree6 (rawOf ⟨12, 11, .finalized⟩) = some (some c2list, t) ∧
      c2list.head? = some ⟨12, true⟩ ∧
      (c2list.filter (fun s => s.rooted)).map (fun s => s.slot) = [12, 11] ∧
      (c2list.filter (fun s => !s.rooted)).map (fun s => s.slot) = [13, 14, 15] ∧
      rootSlot t = 12 :=
  ⟨c2tree, by decide, by decide, by decide, by decide, by decide⟩

/-- C4 counterexample: slot 11 has status Confirmed in `c4tree`; pushing
(slot 11, parent 10, Processed) — a strict status downgrade — overwrites the
node's status with Processed instead of leaving it Confirmed: `set_status`
has no monotonicity check. -/
theorem c4_counterexample :
    statusOfSlot c4tree 11 = some .confirmed ∧
    ∃ t2, pushT c4tree (rawOf ⟨11, 10, .processed⟩) = some (none, t2) ∧
      statusOfSlot t2 11 = some .processed :=
  ⟨by decide, pushD c4tree (rawOf ⟨11, 10, .processed⟩), by decide, by decide⟩

/-- C4 (amended): for every SlotTree with a tracked slot above the current
root (post-bootstrap, with the pushed parent resolving to the node's current
parent), a subsequent non-rooting push for that slot overwrites the node's
status with the pushed status — a downgrade such as Confirmed → Processed is
applied, not ignored, so statuses are not monotone. -/
theorem c4_status_overwritten (t : SlotTree) (raw : RawSlotData)
    (wid : NodeId) (n : SlotNode) (opid : NodeId) (op : SlotNode)
    (npid : NodeId) (np : SlotNode)
    (hb : t.bootstrapping = false) (hgt : rootSlot t < raw.slot)
    (h1 : lookupA t.lookup raw.slot = some wid)
    (h2 : lookupA t.nodes wid = some n)
    (h3 : n.parent = some opid)
    (h4 : lookupA t.nodes opid = some op)
    (h5 : lookupA t.lookup raw.parent = some npid)
    (h6 : lookupA t.nodes npid = some np)
    (heq : op.slot = np.slot)
    (hnr : raw.status ≠ .rooted) :
    ∃ t2, pushT t raw = some (none, t2) ∧
      statusOfSlot t2 raw.slot = some raw.status := by
  have hre : lookupA (updA (updA t.nodes wid (fun m => { m with parent := some npid }))
      wid (fun m => { m with status := raw.status })) wid
      = some { n with parent := some npid, status := raw.status } := by
    rw [lookupA_updA_self, lookupA_updA_self, h2]
    rfl
  have hstep : pushT t raw = pushTracked t raw wid n opid op npid np := by
    simp only [pushT, hb, Bool.false_eq_true, if_false, h1, h2, h3, h4, h5, h6]
    rw [if_neg (Nat.not_le.mpr hgt)]
  have hstep2 : pushTracked t raw wid n opid op npid np
      = some (none, SlotTree.mk
          (updA (updA t.nodes wid (fun m => { m with parent := some npid }))
            wid (fun m => { m with status := raw.status }))
          t.root t.lookup t.bootstrapping t.nextId) := by
    simp only [pushTracked, heq, ne_eq, not_true_eq_false, if_false, hre, hnr]
  refine ⟨_, hstep.trans hstep2, ?_⟩
  show (lookupA t.lookup raw.slot).bind
      (fun id => (lookupA (updA (updA t.nodes wid (fun m => { m with parent := some npid }))
        wid (fun m => { m with status := raw.status })) id).map SlotNode.status)
      = some raw.status
  rw [h1]
  show (lookupA (updA (updA t.nodes wid (fun m => { m with parent := some npid }))
      wid (fun m => { m with status := raw.status })) wid).map SlotNode.status
      = some raw.status
  rw [hre]
  rfl

/-- C4 witness: the downgrade Confirmed → Processed for slot 11 over
`c4tree`, through the amended theorem. -/
theorem c4_witness :
    ∃ t2, pushT c4tree (rawOf ⟨11, 10, .processed⟩) = some (none, t2) ∧
      statusOfSlot t2 (rawOf ⟨11, 10, .processed⟩).slot
        = some (rawOf ⟨11, 10, .processed⟩).status :=
  c4_status_overwritten c4tree (rawOf ⟨11, 10, .processed⟩) 2
    { parent := some 1, children := [], slot := 11, status := .confirmed } 1
    { parent := some 0, children := [(11, 2)], slot := 10, status := .rooted } 1
    { parent := some 0, children := [(11, 2)], slot := 10, status := .rooted }
    (by decide) (by decide) (by decide) (by decide) (by decide) (by decide)
    (by decide) (by decide) (by decide) (by decide)

/-- C9 counterexample: processing the Confirmed update for slot 100 over
`exBuffer` emits one copy with slot_status 2 and keeps the entry, but the
buffered original itself now carries slot_status 2 — it was mutated in place
(`acc.slot_status = 2` through `get_mut`), while the claim states the
buffered originals keep their fields. -/
theorem c9_counterexample :
    handleSlotUpdated exBuffer ⟨100, 10, .confirmed⟩ =
      some ({ accounts := [(100, [setStatusB 2 exAcc])], slots := c9tree },
            [setStatusB 2 exAcc]) ∧
    setStatusB 2 exAcc ≠ exAcc := by decide

/-- C9 (amended): when the Buffer processes a Confirmed update whose slot is
not below the resulting current root, one copy per buffered account of that
slot is emitted to the router with slot_status Confirmed (2), the entry is
not removed — but the buffered originals are mutated in place: their
slot_status becomes 2, all other fields unchanged. -/
theorem c9_confirmed_replay (b : BufferState) (u : SlotUpdatedMessage)
    (res : Option (List RootedOrPrunedSlot)) (t2 : SlotTree)
    (hc : u.commitment = .confirmed)
    (hp : pushT b.slots (rawOf u) = some (res, t2))
    (hr : ¬ u.slot < rootSlot t2) :
    ∃ st, handleSlotUpdated b u =
        some (st, ((lookupA b.accounts u.slot).getD []).map (setStatusB 2)) ∧
      st.slots = t2 ∧
      lookupA st.accounts u.slot =
        (lookupA b.accounts u.slot).map (List.map (setStatusB 2)) := by
  have hres : res = none := by
    refine pushT_inner_none _ _ _ _ hp ?_
    rw [show (rawOf u).status = SlotStatus.ofCommitment u.commitment from rfl, hc]
    decide
  subst hres
  have hconf : u.commitment.isConfirmed = true := by rw [hc]; rfl
  unfold handleSlotUpdated
  rw [hp]
  simp only [hconf, if_true, Option.getD_none, replayLoop]
  refine ⟨BufferState.mk ((updA b.accounts u.slot (List.map (setStatusB 2))).filter
      (fun kv => decide (¬ kv.1 < rootSlot t2))) t2, ?_, rfl, ?_⟩
  · rw [List.append_nil]
  · rw [lookupA_filter_keyTrue _ _ _ (fun v => by simp [hr]), lookupA_updA_self]

/-- C9 witness: the Confirmed replay for slot 100 over `exBuffer`, through
the amended theorem. -/
theorem c9_witness :
    ∃ st, handleSlotUpdated exBuffer ⟨100, 10, .confirmed⟩ =
        some (st, ((lookupA exBuffer.accounts 100).getD []).map (setStatusB 2)) ∧
      st.slots = c9tree ∧
      lookupA st.accounts 100 =
        (lookupA exBuffer.accounts 100).map (List.map (setStatusB 2)) :=
  c9_confirmed_replay exBuffer ⟨100, 10, .confirmed⟩ none c9tree
    (by decide) (by decide) (by decide)

/-- C2: whenever the Buffer processes a SlotUpdate for which `tree.push`
returns a rooted-or-pruned list promoting a new root, each returned rooted
slot's buffered accounts are each sent to the router with slot_status
Finalized (3), each returned pruned slot's buffered accounts are dropped
without being sent — the emissions are exactly `finalizedOut` over the
entry-time accounts — and after the handler finishes the accounts map
contains no key at or below the new root. The `Nodup` hypotheses state that
the returned slots are distinct and that the accounts map (a `BTreeMap` in
the source) has unique keys. -/
theorem c2_finalized_replay (b : BufferState) (u : SlotUpdatedMessage)
    (l : List RootedOrPrunedSlot) (t2 : SlotTree)
    (hp : pushT b.slots (rawOf u) = some (some l, t2))
    (hl : (l.map (fun s => s.slot)).Nodup)
    (hk : (b.accounts.map Prod.fst).Nodup) :
    ∃ st out, handleSlotUpdated b u = some (st, out) ∧
      out = finalizedOut b.accounts l ∧ st.slots = t2 ∧
      ∀ k, k ≤ rootSlot t2 → lookupA st.accounts k = none := by
  have hst : (rawOf u).status = SlotStatus.rooted := pushT_some_status _ _ _ _ hp
  have hcn : u.commitment = .finalized := by
    rw [show (rawOf u).status = SlotStatus.ofCommitment u.commitment from rfl] at hst
    cases hcc : u.commitment <;>
        simp only [SlotStatus.ofCommitment, hcc] at hst <;>
      first
      | rfl
      | exact absurd hst (by decide)
  have hconf : u.commitment.isConfirmed = false := by rw [hcn]; rfl
  unfold handleSlotUpdated
  rw [hp]
  simp only [hconf, Bool.false_eq_true, if_false, Option.getD_some]
  refine ⟨BufferState.mk ((replayLoop l b.accounts).1.filter
      (fun kv => decide (¬ kv.1 < rootSlot t2))) t2, _, rfl, ?_, rfl, ?_⟩
  · rw [List.nil_append]
    exact replayLoop_out l b.accounts hl
  · intro k hkle
    rcases eq_or_lt_of_le hkle with heq | hlt
    · obtain ⟨rest, hshape⟩ := pushT_some_shape _ _ _ _ hp
      have hmem : k ∈ l.map (fun s => s.slot) := by
        rw [hshape, heq]
        simp
      exact lookupA_filter_none _ _ _ (replayLoop_lookup_removed l b.accounts k hk hmem)
    · refine lookupA_filter_keyFalse _ _ _ (fun v => ?_)
      simp [hlt]

/-- C2 witness: finalizing slot 12 over `exBuffer6` replays the accounts
buffered at the rooted slot 12 and drops those at the pruned slot 13. -/
theorem c2_witness :
    ∃ st out, handleSlotUpdated exBuffer6 ⟨12, 11, .finalized⟩ = some (st, out) ∧
      out = finalizedOut exBuffer6.accounts c2list ∧ st.slots = c2tree ∧
      ∀ k, k ≤ rootSlot c2tree → lookupA st.accounts k = none :=
  c2_finalized_replay exBuffer6 ⟨12, 11, .finalized⟩ c2list c2tree
    (by decide) (by decide) (by decide)
